import Mathlib

/-!
Shallow embedding of `src/homeassistant-version-control/utils/git.js`.

The JavaScript module drives an external `git` binary and post-processes its
text output.  We embed the pure text-processing parts (the history parsers of
`gitLog` and `getLightweightGitLog`) as functions over `List Char`, the effectful
parts (`gitExec`, `gitCheckIsRepo`, `gitCheckoutSafe`) as functions over explicit
environment/state records whose oracle fields stand for the outcomes of the
external process and of the filesystem write calls.

JavaScript string primitives used by the source (`trim`, `split`, `parseInt`,
`Date.prototype.toISOString`) are embedded below with their ECMAScript
semantics (restricted to ASCII whitespace, which is all the repository's data
can contain).
-/

/-- ASCII whitespace as recognised by JavaScript `trim` and the regex class
`\s` (space, tab, line feed, carriage return, vertical tab, form feed). -/
def jsIsWs (c : Char) : Bool :=
  c = ' ' || c = '\t' || c = '\n' || c = '\r' || c = '\x0b' || c = '\x0c'

/-- JavaScript `String.prototype.trim`: drop leading and trailing whitespace. -/
def jsTrim (l : List Char) : List Char :=
  ((l.dropWhile jsIsWs).reverse.dropWhile jsIsWs).reverse

/-- `isStart pre l` holds when `pre` is an initial segment of `l`
(the prefix test used to locate separator occurrences). -/
def isStart {α : Type} [DecidableEq α] : List α → List α → Bool
  | [], _ => true
  | _ :: _, [] => false
  | a :: as, b :: bs => a = b && isStart as bs

/-- Locate the leftmost occurrence of the separator `sep` in `s`:
returns the part before the occurrence and the part after it. -/
def findSplit (sep : List Char) : List Char → Option (List Char × List Char)
  | [] => none
  | c :: cs =>
    if isStart sep (c :: cs) then some ([], (c :: cs).drop sep.length)
    else
      match findSplit sep cs with
      | none => none
      | some (pre, post) => some (c :: pre, post)

/-- Fueled worker for `jsSplit`; the fuel only needs to exceed the number of
separator occurrences, and `jsSplit` supplies the length of the input. -/
def jsSplitF (sep : List Char) : Nat → List Char → List (List Char)
  | 0, s => [s]
  | fuel + 1, s =>
    match findSplit sep s with
    | none => [s]
    | some (pre, post) => pre :: jsSplitF sep fuel post

/-- JavaScript `String.prototype.split` with a non-empty string separator:
cut at each leftmost occurrence of `sep`, scanning left to right. -/
def jsSplit (sep s : List Char) : List (List Char) :=
  jsSplitF sep s.length s

/-- Decimal digit test. -/
def decDigit (c : Char) : Bool := '0' ≤ c && c ≤ '9'

/-- Hexadecimal digit test. -/
def hexDigit (c : Char) : Bool :=
  decDigit c || ('a' ≤ c && c ≤ 'f') || ('A' ≤ c && c ≤ 'F')

/-- Numeric value of one (decimal or hexadecimal) digit character. -/
def digitVal (c : Char) : Nat :=
  if decDigit c then c.toNat - '0'.toNat
  else if 'a' ≤ c then c.toNat - 'a'.toNat + 10
  else c.toNat - 'A'.toNat + 10

/-- Accumulate the value of a digit string in the given base. -/
def digitsToNat (base : Nat) : List Char → Nat → Nat
  | [], acc => acc
  | c :: cs, acc => digitsToNat base cs (acc * base + digitVal c)

/-- Magnitude part of JavaScript `parseInt` (radix unspecified): a `0x`/`0X`
prefix selects base 16, otherwise the longest leading run of decimal digits is
taken; no digits at all gives `NaN` (modelled as `none`). -/
def jsParseIntMag (s : List Char) : Option Nat :=
  match s with
  | '0' :: 'x' :: rest =>
    let ds := rest.takeWhile hexDigit
    if ds.isEmpty then none else some (digitsToNat 16 ds 0)
  | '0' :: 'X' :: rest =>
    let ds := rest.takeWhile hexDigit
    if ds.isEmpty then none else some (digitsToNat 16 ds 0)
  | _ =>
    let ds := s.takeWhile decDigit
    if ds.isEmpty then none else some (digitsToNat 10 ds 0)

/-- JavaScript `parseInt(s)`: skip leading whitespace, read an optional sign,
then the magnitude; `none` models `NaN`. -/
def jsParseInt (s : List Char) : Option Int :=
  match s.dropWhile jsIsWs with
  | '-' :: r => (jsParseIntMag r).map (fun n => -(n : Int))
  | '+' :: r => (jsParseIntMag r).map (fun n => (n : Int))
  | r => (jsParseIntMag r).map (fun n => (n : Int))

/-- Zero-pad the decimal rendering of `n` to `width` characters. -/
def padNum (width n : Nat) : String :=
  let s := toString n
  String.mk (List.replicate (width - s.length) '0') ++ s

/-- Civil date (year, month, day) of a day count relative to 1970-01-01,
proleptic Gregorian calendar (the standard era-based conversion used by
ECMAScript date arithmetic). -/
def civilFromDays (z0 : Int) : Int × Nat × Nat :=
  let z := z0 + 719468
  let era := z.fdiv 146097
  let doe := (z - era * 146097).toNat
  let yoe := (doe - doe / 1460 + doe / 36524 - doe / 146096) / 365
  let doy := doe - (365 * yoe + yoe / 4 - yoe / 100)
  let mp := (5 * doy + 2) / 153
  let d := doy - (153 * mp + 2) / 5 + 1
  let m := if mp < 10 then mp + 3 else mp - 9
  let y := (yoe : Int) + era * 400 + (if m ≤ 2 then 1 else 0)
  (y, m, d)

/-- Render a year as `toISOString` does: four digits for 0..9999, otherwise
the signed six-digit expanded form. -/
def isoYear (y : Int) : String :=
  if 0 ≤ y ∧ y ≤ 9999 then padNum 4 y.toNat
  else (if y < 0 then "-" else "+") ++ padNum 6 y.natAbs

/-- `Date.prototype.toISOString` on a valid millisecond timestamp. -/
def isoOfMillis (ms : Int) : String :=
  let days := ms.fdiv 86400000
  let msOfDay := (ms.fmod 86400000).toNat
  let ymd := civilFromDays days
  isoYear ymd.1 ++ "-" ++ padNum 2 ymd.2.1 ++ "-" ++ padNum 2 ymd.2.2 ++
    "T" ++ padNum 2 (msOfDay / 3600000) ++ ":" ++ padNum 2 (msOfDay % 3600000 / 60000) ++
    ":" ++ padNum 2 (msOfDay % 60000 / 1000) ++ "." ++ padNum 3 (msOfDay % 1000) ++ "Z"

/-- `new Date(t * 1000).toISOString()` where `t` is a `parseInt` result:
a `NaN` input or an out-of-range millisecond value makes the `Date` invalid
and `toISOString` throw a `RangeError` (modelled as `Except.error`). -/
def jsDateISO : Option Int → Except String String
  | none => Except.error "Invalid time value"
  | some t =>
    let ms := t * 1000
    if ms.natAbs ≤ 8640000000000000 then Except.ok (isoOfMillis ms)
    else Except.error "Invalid time value"

/-! ## The full-log parser (`gitLog`, src lines 33-121)

`gitLog` builds a `git log` argument vector (record separator `±±±±` placed
before each record, field separator `§§§§` between the seven pretty-format
fields, plus `--name-status -- file` when a file filter is given) and then
parses the raw stdout.  The command invocation is the external collaborator;
the embedding below is the parse of its stdout, parameterised by whether a
`file` filter was passed.  A thrown JavaScript exception is modelled as
`Except.error` carrying the error message. -/

/-- `COMMIT_DELIMITER` = `'±±±±'`. -/
def commitDelim : List Char := ['±', '±', '±', '±']

/-- `DELIMITER` = `'§§§§'` (the field separator). -/
def fieldDelim : List Char := ['§', '§', '§', '§']

/-- One parsed record of `gitLog` (the object literal at src lines 108-117). -/
structure LogCommit where
  hash : String
  short : String
  authorName : String
  authorEmail : String
  date : String
  message : String
  body : String
  status : Option Char
deriving DecidableEq, Repr

/-- The value returned by `gitLog` (src line 120): `{ all, latest, total }`. -/
structure LogResult where
  all : List LogCommit
  latest : Option LogCommit
  total : Nat
deriving DecidableEq, Repr

/-- `parts[i] ? parts[i].trim() : ''` — a missing or empty field degrades to
the empty string. -/
def fieldStr (parts : List (List Char)) (i : Nat) : String :=
  String.mk (jsTrim (parts.getD i []))

/-- The regex test `/^[AMD]\s+/.test(lastLine)` (src line 101). -/
def statusTest : List Char → Bool
  | a :: b :: _ => (a = 'A' || a = 'M' || a = 'D') && jsIsWs b
  | _ => false

/-- `lines.slice(0, -1).join('\n')`. -/
def joinNL : List (List Char) → List Char
  | [] => []
  | [x] => x
  | x :: xs => x ++ '\n' :: joinNL xs

/-- Status/body disambiguation of src lines 88-106: with a file filter, trim
the trailing blob, split it into lines, and if the last line passes the
status-line test take its first character as the status and everything before
it (joined and trimmed) as the body; otherwise the whole blob is the body. -/
def statusAndBody (file : Option String) (bodyAndStatus : List Char) :
    Option Char × List Char :=
  match file with
  | none => (none, bodyAndStatus)
  | some _ =>
    let lines := jsSplit ['\n'] (jsTrim bodyAndStatus)
    let lastLine := lines.getLastD []
    if !lastLine.isEmpty && statusTest lastLine then
      (some (lastLine.headD ' '), jsTrim (joinNL lines.dropLast))
    else (none, bodyAndStatus)

/-- The per-fragment body of `rawCommits.map` (src lines 70-118).  The record
construction evaluates `new Date(parseInt(timestamp) * 1000).toISOString()`,
which throws on a timestamp that does not parse to an in-range number. -/
def parseCommitFragment (file : Option String) (raw : List Char) :
    Except String LogCommit :=
  let parts := jsSplit fieldDelim raw
  let sb := statusAndBody file (parts.getD 6 [])
  match jsDateISO (jsParseInt (jsTrim (parts.getD 4 []))) with
  | Except.error e => Except.error e
  | Except.ok dateStr =>
    Except.ok
      { hash := fieldStr parts 0
        short := fieldStr parts 1
        authorName := fieldStr parts 2
        authorEmail := fieldStr parts 3
        date := dateStr
        message := fieldStr parts 5
        body := String.mk (jsTrim sb.2)
        status := sb.1 }

/-- `Array.prototype.map` over a throwing callback: the first thrown error
aborts the whole call. -/
def mapExcept {α β ε : Type} (f : α → Except ε β) : List α → Except ε (List β)
  | [] => Except.ok []
  | a :: as =>
    match f a with
    | Except.error e => Except.error e
    | Except.ok b =>
      match mapExcept f as with
      | Except.error e => Except.error e
      | Except.ok bs => Except.ok (b :: bs)

/-- The parsing part of `gitLog` (src lines 61-120), as a function of the raw
stdout text and of the `file` option. -/
def gitLogParse (stdout : String) (file : Option String) :
    Except String LogResult :=
  if (jsTrim stdout.data).isEmpty then Except.ok ⟨[], none, 0⟩
  else
    let raws := (jsSplit commitDelim stdout.data).filter
      (fun c => !(jsTrim c).isEmpty)
    match mapExcept (parseCommitFragment file) raws with
    | Except.error e => Except.error e
    | Except.ok commits => Except.ok ⟨commits, commits.head?, commits.length⟩

/-! ## The lightweight-log parser (`getLightweightGitLog`, src lines 186-213)

Format string `%H§§§§%P§§§§%aI§§§§%s±±±±`: here the record separator trails
each record, and the parse cannot throw. -/

/-- One parsed record of `getLightweightGitLog` (src lines 204-209). -/
structure LwCommit where
  hash : String
  parents : List String
  date : String
  message : String
deriving DecidableEq, Repr

/-- The value returned by `getLightweightGitLog` (src line 212). -/
structure LwResult where
  all : List LwCommit
  total : Nat
  latest : Option LwCommit
deriving DecidableEq, Repr

/-- `parts[1] ? parts[1].trim().split(' ') : []` (src line 206): an absent or
empty parent field gives the empty list, otherwise the trimmed field is split
on single space characters. -/
def lwParseParents (field : List Char) : List String :=
  if field.isEmpty then []
  else (jsSplit [' '] (jsTrim field)).map (fun l => String.mk l)

/-- The per-fragment body of the lightweight `rawCommits.map` (src 202-210). -/
def parseLwFragment (raw : List Char) : LwCommit :=
  let parts := jsSplit fieldDelim raw
  { hash := fieldStr parts 0
    parents := lwParseParents (parts.getD 1 [])
    date := fieldStr parts 2
    message := fieldStr parts 3 }

/-- The parsing part of `getLightweightGitLog` (src lines 196-212). -/
def lwLogParse (stdout : String) : LwResult :=
  if (jsTrim stdout.data).isEmpty then ⟨[], 0, none⟩
  else
    let commits := ((jsSplit commitDelim stdout.data).filter
      (fun c => !(jsTrim c).isEmpty)).map parseLwFragment
    ⟨commits, commits.length, commits.head?⟩

/-! ## `gitExec` and `gitCheckIsRepo` (src lines 9-27 and 221-228)

`gitExec` throws when the global `CONFIG_PATH` is unset and otherwise runs the
external process; the process outcome is an oracle field of the environment. -/

/-- A JavaScript `Error` value, identified by its message. -/
inductive JsError where
  | mk (msg : String)
deriving DecidableEq, Repr

/-- `Error.prototype.message`. -/
def jsErrMsg : JsError → String
  | JsError.mk m => m

/-- Process-wide environment of `gitExec`: the `global.CONFIG_PATH` value and
an oracle giving, for each argument vector, the outcome of
`execFileAsync('git', args, ...)` (stdout on success, a rejection otherwise:
nonzero exit, timeout, or output-cap violation). -/
structure GitEnv where
  configPath : Option String
  run : List String → Except JsError String

/-- `gitExec` (src lines 9-27): throw `'CONFIG_PATH not initialized'` when the
root directory is unconfigured, otherwise defer to the external process. -/
def gitExec (env : GitEnv) (args : List String) : Except JsError String :=
  match env.configPath with
  | none => Except.error (JsError.mk "CONFIG_PATH not initialized")
  | some _ => env.run args

/-- `gitCheckIsRepo` (src lines 221-228): run `rev-parse --is-inside-work-tree`
inside a `try`, returning `true` on success and `false` on any thrown error. -/
def gitCheckIsRepo (env : GitEnv) : Except JsError Bool :=
  match gitExec env ["rev-parse", "--is-inside-work-tree"] with
  | Except.ok _ => Except.ok true
  | Except.error _ => Except.ok false

/-! ## `gitCheckoutSafe` (src lines 248-287)

The filesystem is an explicit state: an association list of file paths to
string contents plus a set of existing directories.  Paths are modelled as
component lists (`path.join` is list append, `path.dirname` drops the last
component).  The fetch outcome (`gitExec(['show', hash:path])`) and the
outcome of each successive `fs.writeFileSync` call are oracle fields.
`fs.writeFileSync` opens the target with truncation before writing, so a call
that fails may leave the file truncated, partially written, or missing — or
unchanged, when it fails before the open; the oracle also picks which bytes,
if any, a failed write leaves behind. -/

/-- Working-tree state: file contents and existing directories. -/
structure FSState where
  files : List (List String × String)
  dirs : List (List String)
deriving DecidableEq, Repr

/-- `fs.readFileSync(p, 'utf-8')`, with any read failure mapped to `none`
(the source treats every read error as "file doesn't exist, no backup"). -/
def fsRead (fs : FSState) (p : List String) : Option String :=
  (fs.files.find? (fun e => decide (e.1 = p))).map (fun e => e.2)

/-- `fs.writeFileSync(p, c, 'utf-8')` when the write succeeds. -/
def fsWrite (fs : FSState) (p : List String) (c : String) : FSState :=
  { fs with files := (p, c) :: fs.files }

/-- All non-empty initial segments of a path: the chain of directories that
`fs.mkdirSync(dir, { recursive: true })` brings into existence. -/
def initsNE : List String → List (List String)
  | [] => []
  | x :: xs => [x] :: (initsNE xs).map (fun l => x :: l)

/-- `fs.mkdirSync(d, { recursive: true })`. -/
def mkdirRec (fs : FSState) (d : List String) : FSState :=
  { fs with dirs := initsNE d ++ fs.dirs }

/-- Render a component path the way the source interpolates `filePath` into
its log messages. -/
def pathStr (p : List String) : String := String.intercalate "/" p

/-- Removal of one path's file entry, used to model a failed write that
leaves no file behind. -/
def fsErase (fs : FSState) (p : List String) : FSState :=
  { fs with files := fs.files.filter (fun e => !decide (e.1 = p)) }

/-- The state after a FAILED `fs.writeFileSync(p, ...)`: the call truncates
the target on open, so the file may end up holding arbitrary partial bytes
(`some s` — including, for a failure before the open, its previous content)
or be missing entirely (`none`); which outcome occurs is the oracle's
choice. -/
def fsAfterFailedWrite (fs : FSState) (p : List String) : Option String → FSState
  | none => fsErase fs p
  | some s => fsWrite fs p s

/-- Oracles for one `gitCheckoutSafe` call: the outcome of the `git show`
fetch; for the n-th `fs.writeFileSync` call (counting from 0 in call order)
either `none` (success) or the error it throws; and, when the n-th write
fails, whatever content the interrupted write left at the target path
(`none` = no file). -/
structure RestoreEnv where
  fetch : Except JsError String
  writeErr : Nat → Option JsError
  partialContent : Nat → Option String

/-- Index of the rollback write within a `gitCheckoutSafe` run: after a fetch
failure no write has happened yet, so the rollback is write call 0; after a
primary-write failure the rollback is write call 1. -/
def rollbackIndex : Except JsError String → Nat
  | Except.error _ => 0
  | Except.ok _ => 1

/-- Result of a `gitCheckoutSafe` call: the returned/thrown value, the final
filesystem state, and the `console.error` lines emitted. -/
structure RestoreOut where
  result : Except JsError Unit
  fs : FSState
  logs : List String
deriving Repr

/-- The `catch` block of `gitCheckoutSafe` (src lines 274-286): log the
failure, and if a backup was captured try one write — the `n`-th write call
of the run — to put it back.  A successful rollback logs the restored-backup
line and leaves the backup bytes in place; a failed one logs the CRITICAL
line and leaves whatever the interrupted write produced.  In every case the
original error is re-thrown. -/
def restoreCatch (env : RestoreEnv) (n : Nat) (e : JsError)
    (fullPath : List String) (fpStr : String) (backup : Option String)
    (fs : FSState) : RestoreOut :=
  let log1 := "[git] Restore failed for " ++ fpStr ++ ": " ++ jsErrMsg e
  match backup with
  | none => ⟨Except.error e, fs, [log1]⟩
  | some b =>
    match env.writeErr n with
    | none =>
      ⟨Except.error e, fsWrite fs fullPath b,
        [log1, "[git] Restored backup after failed restore: " ++ fpStr]⟩
    | some re =>
      ⟨Except.error e, fsAfterFailedWrite fs fullPath (env.partialContent n),
        [log1,
          "[git] CRITICAL: Restore failed AND could not restore backup: " ++
            jsErrMsg re]⟩

/-- `gitCheckoutSafe(commitHash, filePath)` (src lines 248-287): back up the
current content if readable, fetch the blob at the revision, ensure the parent
directory exists, overwrite the file; on any fetch/write failure run the
`catch` block above.  `cfg` is the component form of `global.CONFIG_PATH` and
`fp` of `filePath`; `env.fetch` stands for
`gitExec(['show', commitHash ++ ':' ++ filePath])`. -/
def gitCheckoutSafe (env : RestoreEnv) (cfg fp : List String) (fs : FSState) :
    RestoreOut :=
  let fullPath := cfg ++ fp
  let backup := fsRead fs fullPath
  match env.fetch with
  | Except.error e =>
    restoreCatch env 0 e fullPath (pathStr fp) backup fs
  | Except.ok newContent =>
    let d := fullPath.dropLast
    let fs1 := if d ∈ fs.dirs then fs else mkdirRec fs d
    match env.writeErr 0 with
    | none => ⟨Except.ok (), fsWrite fs1 fullPath newContent, []⟩
    | some we =>
      restoreCatch env 1 we fullPath (pathStr fp) backup
        (fsAfterFailedWrite fs1 fullPath (env.partialContent 0))

/-! ## Properties of the embedded string primitives -/

theorem isStart_append_self {α : Type} [DecidableEq α] (l t : List α) :
    isStart l (l ++ t) = true := by
  induction l with
  | nil => rfl
  | cons a as ih => simp [isStart, ih]

theorem findSplit_eq_none (d : Char) (ds s : List Char) (h : d ∉ s) :
    findSplit (d :: ds) s = none := by
  induction s with
  | nil => rfl
  | cons c cs ih =>
    have hdc : d ≠ c := fun hh => h (hh ▸ List.mem_cons_self c cs)
    have h2 : d ∉ cs := fun hh => h (List.mem_cons_of_mem c hh)
    have : isStart (d :: ds) (c :: cs) = false := by
      simp [isStart, hdc]
    simp [findSplit, this, ih h2]

theorem findSplit_append (d : Char) (ds s t : List Char) (h : d ∉ s) :
    findSplit (d :: ds) (s ++ d :: (ds ++ t)) = some (s, t) := by
  induction s with
  | nil =>
    have h1 : isStart (d :: ds) (d :: (ds ++ t)) = true := by
      simpa using isStart_append_self (d :: ds) t
    simp [findSplit, h1, List.drop_left]
  | cons c cs ih =>
    have hdc : d ≠ c := fun hh => h (hh ▸ List.mem_cons_self c cs)
    have h2 : d ∉ cs := fun hh => h (List.mem_cons_of_mem c hh)
    simp [findSplit, isStart, hdc, ih h2]

theorem isStart_eq_append (l s : List α) [DecidableEq α] (h : isStart l s = true) :
    s = l ++ s.drop l.length := by
  induction l generalizing s with
  | nil => simp
  | cons a as ih =>
    cases s with
    | nil => simp [isStart] at h
    | cons b bs =>
      rw [isStart, Bool.and_eq_true, decide_eq_true_eq] at h
      obtain ⟨rfl, h2⟩ := h
      simpa using ih bs h2

theorem findSplit_decomp (sep s pre post : List Char)
    (h : findSplit sep s = some (pre, post)) : s = pre ++ sep ++ post := by
  induction s generalizing pre with
  | nil => simp [findSplit] at h
  | cons c cs ih =>
    rw [findSplit] at h
    by_cases hs : isStart sep (c :: cs) = true
    · simp only [hs, if_true] at h
      obtain ⟨rfl, rfl⟩ := Prod.mk.injEq .. ▸ Option.some.injEq .. ▸ h
      simpa using isStart_eq_append sep (c :: cs) hs
    · simp only [hs, if_false, Bool.not_eq_true] at h
      cases hfs : findSplit sep cs with
      | none => rw [hfs] at h; simp at h
      | some pp =>
        rw [hfs] at h
        obtain ⟨pre', post'⟩ := pp
        simp only [Option.some.injEq, Prod.mk.injEq] at h
        obtain ⟨rfl, rfl⟩ := h
        have := ih pre' (by rw [hfs])
        simp [← this]

theorem findSplit_post_lt (sep s pre post : List Char) (hsep : sep ≠ [])
    (h : findSplit sep s = some (pre, post)) : post.length < s.length := by
  have hd := findSplit_decomp sep s pre post h
  have : 1 ≤ sep.length := by
    cases sep with
    | nil => exact absurd rfl hsep
    | cons a as => simp
  subst hd
  simp [List.length_append]
  omega

theorem jsSplitF_nil (sep : List Char) (f : Nat) : jsSplitF sep f [] = [[]] := by
  cases f with
  | zero => rfl
  | succ n => rw [jsSplitF]; rfl

theorem jsSplitF_congr (sep : List Char) (hsep : sep ≠ []) :
    ∀ f g s, s.length ≤ f → s.length ≤ g → jsSplitF sep f s = jsSplitF sep g s := by
  intro f
  induction f with
  | zero =>
    intro g s hf _
    have : s = [] := List.length_eq_zero.mp (Nat.le_zero.mp hf)
    subst this
    rw [jsSplitF_nil, jsSplitF_nil]
  | succ n ih =>
    intro g s hf hg
    cases g with
    | zero =>
      have : s = [] := List.length_eq_zero.mp (Nat.le_zero.mp hg)
      subst this
      rw [jsSplitF_nil, jsSplitF_nil]
    | succ m =>
      rw [jsSplitF, jsSplitF]
      cases hfs : findSplit sep s with
      | none => rfl
      | some pp =>
        obtain ⟨pre, post⟩ := pp
        have hlt : post.length < s.length := findSplit_post_lt sep s pre post hsep hfs
        have h1 : post.length ≤ n := by omega
        have h2 : post.length ≤ m := by omega
        show pre :: jsSplitF sep n post = pre :: jsSplitF sep m post
        rw [ih m post h1 h2]

theorem jsSplitF_of_none (sep s : List Char) (h : findSplit sep s = none) :
    ∀ f, jsSplitF sep f s = [s] := by
  intro f
  cases f with
  | zero => rfl
  | succ n => rw [jsSplitF, h]

theorem jsSplit_single (d : Char) (ds s : List Char) (h : d ∉ s) :
    jsSplit (d :: ds) s = [s] :=
  jsSplitF_of_none _ _ (findSplit_eq_none d ds s h) _

theorem jsSplit_append (d : Char) (ds s t : List Char) (h : d ∉ s) :
    jsSplit (d :: ds) (s ++ d :: (ds ++ t)) = s :: jsSplit (d :: ds) t := by
  have hfs := findSplit_append d ds s t h
  have hlen : (s ++ d :: (ds ++ t)).length = (s.length + ds.length + t.length) + 1 := by
    simp [List.length_append]; omega
  rw [jsSplit, hlen, jsSplitF, hfs]
  have ht : t.length ≤ s.length + ds.length + t.length := by omega
  show s :: jsSplitF (d :: ds) (s.length + ds.length + t.length) t = s :: jsSplit (d :: ds) t
  rw [jsSplitF_congr (d :: ds) (by simp) _ t.length t ht (Nat.le_refl _)]
  rfl

theorem jsTrim_eq_nil_iff (l : List Char) :
    jsTrim l = [] ↔ ∀ c ∈ l, jsIsWs c = true := by
  constructor
  · intro h c hc
    by_contra hw
    rw [Bool.not_eq_true] at hw
    rw [jsTrim, List.reverse_eq_nil_iff, List.dropWhile_eq_nil_iff] at h
    have hsplit : l.takeWhile jsIsWs ++ l.dropWhile jsIsWs = l :=
      List.takeWhile_append_dropWhile jsIsWs l
    have hcd : c ∈ l.dropWhile jsIsWs := by
      rw [← hsplit] at hc
      rcases List.mem_append.mp hc with h1 | h1
      · exact absurd (List.mem_takeWhile_imp h1) (by simp [hw])
      · exact h1
    exact absurd (h c (List.mem_reverse.mpr hcd)) (by simp [hw])
  · intro h
    rw [jsTrim, List.reverse_eq_nil_iff, List.dropWhile_eq_nil_iff]
    intro c hc
    have hcd : c ∈ l.dropWhile jsIsWs := List.mem_reverse.mp hc
    have hsplit : l.takeWhile jsIsWs ++ l.dropWhile jsIsWs = l :=
      List.takeWhile_append_dropWhile jsIsWs l
    exact h c (by rw [← hsplit]; exact List.mem_append.mpr (Or.inr hcd))

theorem jsTrim_eq_self (l : List Char)
    (h1 : ∀ c, l.head? = some c → jsIsWs c = false)
    (h2 : ∀ c, l.getLast? = some c → jsIsWs c = false) : jsTrim l = l := by
  cases l with
  | nil => rfl
  | cons a as =>
    have hd : (a :: as).dropWhile jsIsWs = a :: as := by
      rw [List.dropWhile_cons, h1 a rfl]
      simp
    rw [jsTrim, hd]
    cases hr : (a :: as).reverse with
    | nil => exact absurd (List.reverse_eq_nil_iff.mp hr) (by simp)
    | cons b bs =>
      have hb : (a :: as).getLast? = some b := by
        rw [← List.head?_reverse, hr]; rfl
      rw [List.dropWhile_cons, h2 b hb]
      simp [← hr]

/-! ## Well-formed delimited log text

A raw record as `git log` would emit it for the pretty-format of `gitLog`:
seven field texts.  `renderLog` rebuilds the exact raw stdout (record
separator before each record, field separator between fields).  Records are
well formed when no field contains a separator character, the hash does not
trim to nothing, and the timestamp parses to an in-range epoch second. -/

structure RawLogRecord where
  hash : String
  short : String
  authorName : String
  authorEmail : String
  timestamp : String
  subject : String
  body : String
deriving DecidableEq, Repr

/-- The raw text of one record (the expansion of the pretty-format). -/
def renderFragment (r : RawLogRecord) : List Char :=
  r.hash.data ++ fieldDelim ++ r.short.data ++ fieldDelim ++
    r.authorName.data ++ fieldDelim ++ r.authorEmail.data ++ fieldDelim ++
    r.timestamp.data ++ fieldDelim ++ r.subject.data ++ fieldDelim ++ r.body.data

/-- The raw stdout of `git log` for a record list. -/
def renderLogChars : List RawLogRecord → List Char
  | [] => []
  | r :: rs => commitDelim ++ renderFragment r ++ renderLogChars rs

/-- The raw stdout as a string. -/
def renderLog (rs : List RawLogRecord) : String :=
  String.mk (renderLogChars rs)

/-- A field text that contains neither separator character. -/
def cleanStr (s : String) : Prop := '±' ∉ s.data ∧ '§' ∉ s.data

/-- All seven fields are separator-clean. -/
def cleanRecord (r : RawLogRecord) : Prop :=
  cleanStr r.hash ∧ cleanStr r.short ∧ cleanStr r.authorName ∧
    cleanStr r.authorEmail ∧ cleanStr r.timestamp ∧ cleanStr r.subject ∧
    cleanStr r.body

/-- Well-formed record: separator-clean fields, a hash that survives
trimming, and a timestamp `parseInt` accepts with an in-range value. -/
def wfRecord (r : RawLogRecord) : Prop :=
  cleanRecord r ∧ jsTrim r.hash.data ≠ [] ∧
    ∃ t : Int, jsParseInt (jsTrim r.timestamp.data) = some t ∧
      (t * 1000).natAbs ≤ 8640000000000000

/-- The commit record `gitLog` should produce for a well-formed raw record
parsed without a file filter. -/
def interpretRecord (r : RawLogRecord) : LogCommit :=
  { hash := String.mk (jsTrim r.hash.data)
    short := String.mk (jsTrim r.short.data)
    authorName := String.mk (jsTrim r.authorName.data)
    authorEmail := String.mk (jsTrim r.authorEmail.data)
    date := match jsDateISO (jsParseInt (jsTrim r.timestamp.data)) with
      | Except.ok d => d
      | Except.error _ => ""
    message := String.mk (jsTrim r.subject.data)
    body := String.mk (jsTrim r.body.data)
    status := none }

theorem jsSplit_fd_append (s t : List Char) (h : '§' ∉ s) :
    jsSplit fieldDelim (s ++ (fieldDelim ++ t)) = s :: jsSplit fieldDelim t := by
  simpa [fieldDelim] using jsSplit_append '§' ['§', '§', '§'] s t h

theorem jsSplit_fd_single (s : List Char) (h : '§' ∉ s) :
    jsSplit fieldDelim s = [s] :=
  jsSplit_single '§' ['§', '§', '§'] s h

theorem jsSplit_cd_append (s t : List Char) (h : '±' ∉ s) :
    jsSplit commitDelim (s ++ (commitDelim ++ t)) = s :: jsSplit commitDelim t := by
  simpa [commitDelim] using jsSplit_append '±' ['±', '±', '±'] s t h

theorem jsSplit_cd_single (s : List Char) (h : '±' ∉ s) :
    jsSplit commitDelim s = [s] :=
  jsSplit_single '±' ['±', '±', '±'] s h

theorem fields_split (r : RawLogRecord) (hc : cleanRecord r) :
    jsSplit fieldDelim (renderFragment r) =
      [r.hash.data, r.short.data, r.authorName.data, r.authorEmail.data,
        r.timestamp.data, r.subject.data, r.body.data] := by
  obtain ⟨h1, h2, h3, h4, h5, h6, h7⟩ := hc
  rw [renderFragment]
  simp only [List.append_assoc]
  rw [jsSplit_fd_append _ _ h1.2, jsSplit_fd_append _ _ h2.2,
    jsSplit_fd_append _ _ h3.2, jsSplit_fd_append _ _ h4.2,
    jsSplit_fd_append _ _ h5.2, jsSplit_fd_append _ _ h6.2,
    jsSplit_fd_single _ h7.2]

theorem renderFragment_no_cd (r : RawLogRecord) (hc : cleanRecord r) :
    '±' ∉ renderFragment r := by
  obtain ⟨h1, h2, h3, h4, h5, h6, h7⟩ := hc
  intro hm
  rw [renderFragment] at hm
  simp only [List.mem_append] at hm
  rcases hm with ((((((((((((h | h) | h) | h) | h) | h) | h) | h) | h) | h) | h) | h) | h) <;>
    first
      | exact h1.1 h
      | exact h2.1 h
      | exact h3.1 h
      | exact h4.1 h
      | exact h5.1 h
      | exact h6.1 h
      | exact h7.1 h
      | exact absurd h (by decide)

theorem isEmpty_false_of_ne (l : List Char) (h : l ≠ []) : l.isEmpty = false := by
  cases l with
  | nil => exact absurd rfl h
  | cons a as => rfl

theorem renderFragment_trim_ne (r : RawLogRecord) (h : jsTrim r.hash.data ≠ []) :
    jsTrim (renderFragment r) ≠ [] := by
  intro hz
  apply h
  rw [jsTrim_eq_nil_iff] at hz ⊢
  intro c hc
  exact hz c (by rw [renderFragment]; simp [List.mem_append, hc])

theorem jsSplit_cd_lead (t : List Char) :
    jsSplit commitDelim (commitDelim ++ t) = [] :: jsSplit commitDelim t := by
  simpa using jsSplit_cd_append [] t (by simp)

theorem jsSplit_cd_chain (r : RawLogRecord) (rs : List RawLogRecord)
    (hr : '±' ∉ renderFragment r) (h : ∀ x ∈ rs, cleanRecord x) :
    jsSplit commitDelim (renderFragment r ++ renderLogChars rs) =
      renderFragment r :: rs.map renderFragment := by
  induction rs generalizing r with
  | nil => simpa [renderLogChars] using jsSplit_cd_single (renderFragment r) hr
  | cons r2 rs2 ih =>
    rw [renderLogChars]
    simp only [List.append_assoc]
    rw [jsSplit_cd_append _ _ hr]
    rw [ih r2 (renderFragment_no_cd r2 (h r2 (List.mem_cons_self r2 rs2)))
      (fun x hx => h x (List.mem_cons_of_mem r2 hx))]
    rfl

theorem gitLog_split (rs : List RawLogRecord) (h : ∀ r ∈ rs, cleanRecord r) :
    jsSplit commitDelim (renderLogChars rs) = [] :: rs.map renderFragment := by
  cases rs with
  | nil => rfl
  | cons r rs2 =>
    rw [renderLogChars]
    simp only [List.append_assoc]
    rw [jsSplit_cd_lead]
    rw [jsSplit_cd_chain r rs2 (renderFragment_no_cd r (h r (List.mem_cons_self r rs2)))
      (fun x hx => h x (List.mem_cons_of_mem r hx))]
    rfl

theorem parseCommitFragment_render (r : RawLogRecord) (h : wfRecord r) :
    parseCommitFragment none (renderFragment r) = Except.ok (interpretRecord r) := by
  obtain ⟨hc, hh, t, ht, hb⟩ := h
  have hkey : jsDateISO (jsParseInt (jsTrim r.timestamp.data)) =
      Except.ok (isoOfMillis (t * 1000)) := by
    rw [ht]; simp [jsDateISO, hb]
  have g4 : List.getD [r.hash.data, r.short.data, r.authorName.data,
      r.authorEmail.data, r.timestamp.data, r.subject.data, r.body.data] 4 [] =
      r.timestamp.data := rfl
  simp only [parseCommitFragment, statusAndBody, fields_split r hc, interpretRecord]
  rw [g4, hkey]
  rfl

theorem mapExcept_render (rs : List RawLogRecord) (h : ∀ r ∈ rs, wfRecord r) :
    mapExcept (parseCommitFragment none) (rs.map renderFragment) =
      Except.ok (rs.map interpretRecord) := by
  induction rs with
  | nil => rfl
  | cons r rs2 ih =>
    rw [List.map_cons, mapExcept,
      parseCommitFragment_render r (h r (List.mem_cons_self r rs2)),
      ih (fun x hx => h x (List.mem_cons_of_mem r hx)), List.map_cons]

theorem data_mk (l : List Char) : (String.mk l).data = l := rfl

theorem filter_render (rs : List RawLogRecord) (h : ∀ r ∈ rs, wfRecord r) :
    (([] :: rs.map renderFragment).filter (fun c => !(jsTrim c).isEmpty)) =
      rs.map renderFragment := by
  have h0 : List.filter (fun c => !(jsTrim c).isEmpty) ([] :: rs.map renderFragment) =
      List.filter (fun c => !(jsTrim c).isEmpty) (rs.map renderFragment) := rfl
  rw [h0, List.filter_eq_self]
  intro a ha
  obtain ⟨x, hx, rfl⟩ := List.mem_map.mp ha
  have := renderFragment_trim_ne x (h x hx).2.1
  simp [isEmpty_false_of_ne _ this]

/-- Claim C5: a well-formed delimited log text with N records parses to
exactly those N records in textual (newest-first) order, with `latest` the
first parsed record and `total` equal to N. -/
theorem gitLogParse_wellFormed (rs : List RawLogRecord) (h : ∀ r ∈ rs, wfRecord r) :
    gitLogParse (renderLog rs) none =
      Except.ok ⟨rs.map interpretRecord, (rs.map interpretRecord).head?, rs.length⟩ := by
  cases rs with
  | nil => rfl
  | cons r rs2 =>
    have hcl : ∀ x ∈ r :: rs2, cleanRecord x := fun x hx => (h x hx).1
    have hne : jsTrim (renderLogChars (r :: rs2)) ≠ [] := by
      intro hz
      rw [jsTrim_eq_nil_iff] at hz
      have hm : '±' ∈ renderLogChars (r :: rs2) := by
        rw [renderLogChars]
        simp [commitDelim, List.mem_append]
      exact absurd (hz '±' hm) (by decide)
    have hsplit := gitLog_split (r :: rs2) hcl
    have hfil := filter_render (r :: rs2) h
    have hmap := mapExcept_render (r :: rs2) h
    have hdata : (renderLog (r :: rs2)).data = renderLogChars (r :: rs2) := rfl
    have hcond : ¬ ((jsTrim (renderLog (r :: rs2)).data).isEmpty = true) := by
      rw [hdata, isEmpty_false_of_ne _ hne]
      exact Bool.false_ne_true
    unfold gitLogParse
    rw [if_neg hcond, hdata, hsplit, hfil]
    simp only [hmap]
    simp [List.length_map]

/-! ## The status-line heuristic under a file filter -/

/-- The status/body rule the code actually implements, written out at the
level of the trailing blob: trim the blob, split the trimmed text into lines,
and test the last of those lines (whose trailing whitespace the outer trim has
already removed) against the status pattern. -/
def amendedLastLineRule (blob : List Char) : Option Char × List Char :=
  let lines := jsSplit ['\n'] (jsTrim blob)
  let lastLine := lines.getLastD []
  if statusTest lastLine then
    (some (lastLine.headD ' '), jsTrim (joinNL lines.dropLast))
  else (none, blob)

/-- Modelled from the spec sentence of the claim: inspect the LAST non-blank
line of the trailing blob, verbatim; iff it matches "single status letter from
A/M/D followed by whitespace", its first character is the status. -/
def specLastNonBlankStatus (blob : List Char) : Option Char :=
  match ((jsSplit ['\n'] blob).filter (fun l => !(jsTrim l).isEmpty)).getLast? with
  | none => none
  | some l => if statusTest l then some (l.headD ' ') else none

theorem statusTest_absorb (l : List Char) :
    (!l.isEmpty && statusTest l) = statusTest l := by
  cases l with
  | nil => rfl
  | cons a as => simp [List.isEmpty]

theorem statusAndBody_some_eq (f : String) (blob : List Char) :
    statusAndBody (some f) blob = amendedLastLineRule blob := by
  simp only [statusAndBody, amendedLastLineRule, statusTest_absorb]

/-- The record `gitLog` produces for a well-formed raw record parsed WITH a
file filter: the status and pre-trim body come from the trimmed-last-line
rule applied to the body field. -/
def interpretRecordFile (r : RawLogRecord) : LogCommit :=
  { hash := String.mk (jsTrim r.hash.data)
    short := String.mk (jsTrim r.short.data)
    authorName := String.mk (jsTrim r.authorName.data)
    authorEmail := String.mk (jsTrim r.authorEmail.data)
    date := match jsDateISO (jsParseInt (jsTrim r.timestamp.data)) with
      | Except.ok d => d
      | Except.error _ => ""
    message := String.mk (jsTrim r.subject.data)
    body := String.mk (jsTrim (amendedLastLineRule r.body.data).2)
    status := (amendedLastLineRule r.body.data).1 }

theorem parseCommitFragment_render_file (f : String) (r : RawLogRecord)
    (h : wfRecord r) :
    parseCommitFragment (some f) (renderFragment r) =
      Except.ok (interpretRecordFile r) := by
  obtain ⟨hc, hh, t, ht, hb⟩ := h
  have hkey : jsDateISO (jsParseInt (jsTrim r.timestamp.data)) =
      Except.ok (isoOfMillis (t * 1000)) := by
    rw [ht]; simp [jsDateISO, hb]
  have g4 : List.getD [r.hash.data, r.short.data, r.authorName.data,
      r.authorEmail.data, r.timestamp.data, r.subject.data, r.body.data] 4 [] =
      r.timestamp.data := rfl
  have g6 : List.getD [r.hash.data, r.short.data, r.authorName.data,
      r.authorEmail.data, r.timestamp.data, r.subject.data, r.body.data] 6 [] =
      r.body.data := rfl
  simp only [parseCommitFragment, fields_split r hc, interpretRecordFile]
  rw [g4, g6, hkey, statusAndBody_some_eq]
  rfl

/-- Claim C4 (amended): with a file filter, the code first trims the trailing
blob and splits the trimmed text into lines; the LAST of those lines (its
trailing whitespace already removed by the trim) is treated as a status line
iff it matches "status letter from A/M/D followed by whitespace" — in which
case the status is that letter and the line is stripped from the body —
and otherwise the whole (trimmed) blob is the body and the status is
Unknown. -/
theorem gitLogParse_file_single (f : String) (r : RawLogRecord) (h : wfRecord r) :
    gitLogParse (renderLog [r]) (some f) =
      Except.ok ⟨[interpretRecordFile r], some (interpretRecordFile r), 1⟩ := by
  have hw : ∀ x ∈ [r], wfRecord x := by
    intro x hx
    rw [List.mem_singleton] at hx
    subst hx
    exact h
  have hcl : ∀ x ∈ [r], cleanRecord x := fun x hx => (hw x hx).1
  have hne : jsTrim (renderLogChars [r]) ≠ [] := by
    intro hz
    rw [jsTrim_eq_nil_iff] at hz
    have hm : '±' ∈ renderLogChars [r] := by
      rw [renderLogChars]
      simp [commitDelim, List.mem_append]
    exact absurd (hz '±' hm) (by decide)
  have hsplit := gitLog_split [r] hcl
  have hfil := filter_render [r] hw
  have hmape : mapExcept (parseCommitFragment (some f)) ([r].map renderFragment) =
      Except.ok [interpretRecordFile r] := by
    simp only [List.map_cons, List.map_nil, mapExcept,
      parseCommitFragment_render_file f r h]
  have hdata : (renderLog [r]).data = renderLogChars [r] := rfl
  have hcond : ¬ ((jsTrim (renderLog [r]).data).isEmpty = true) := by
    rw [hdata, isEmpty_false_of_ne _ hne]
    exact Bool.false_ne_true
  unfold gitLogParse
  rw [if_neg hcond, hdata, hsplit, hfil]
  simp only [hmape]
  rfl

theorem amendedRule_statusCases (blob : List Char) :
    (amendedLastLineRule blob).1 = none ∨ (amendedLastLineRule blob).1 = some 'A' ∨
      (amendedLastLineRule blob).1 = some 'M' ∨
      (amendedLastLineRule blob).1 = some 'D' := by
  simp only [amendedLastLineRule]
  generalize (jsSplit ['\n'] (jsTrim blob)).getLastD [] = L
  by_cases hst : statusTest L = true
  · rw [if_pos hst]
    cases L with
    | nil => simp [statusTest] at hst
    | cons a as =>
      cases as with
      | nil => simp [statusTest] at hst
      | cons b bs =>
        simp only [statusTest, Bool.and_eq_true, Bool.or_eq_true,
          decide_eq_true_eq] at hst
        rcases hst.1 with (hA | hM) | hD
        · subst hA; right; left; rfl
        · subst hM; right; right; left; rfl
        · subst hD; right; right; right; rfl
  · rw [if_neg hst]
    left
    rfl

theorem parseCommitFragment_status (file : Option String) (raw : List Char)
    (c : LogCommit) (h : parseCommitFragment file raw = Except.ok c) :
    c.status = (statusAndBody file ((jsSplit fieldDelim raw).getD 6 [])).1 := by
  simp only [parseCommitFragment] at h
  cases hd : jsDateISO (jsParseInt (jsTrim ((jsSplit fieldDelim raw).getD 4 []))) with
  | error e =>
    rw [hd] at h
    simp at h
  | ok d =>
    rw [hd] at h
    simp only [Except.ok.injEq] at h
    rw [← h]

theorem mapExcept_mem {α β ε : Type} (f : α → Except ε β) (l : List α)
    (bs : List β) (h : mapExcept f l = Except.ok bs) :
    ∀ b ∈ bs, ∃ a ∈ l, f a = Except.ok b := by
  induction l generalizing bs with
  | nil =>
    simp only [mapExcept, Except.ok.injEq] at h
    subst h
    intro b hb
    simp at hb
  | cons a as ih =>
    simp only [mapExcept] at h
    cases hf : f a with
    | error e => rw [hf] at h; simp at h
    | ok b0 =>
      rw [hf] at h
      cases hm : mapExcept f as with
      | error e => rw [hm] at h; simp at h
      | ok bs0 =>
        rw [hm] at h
        simp only [Except.ok.injEq] at h
        subst h
        intro b hb
        rcases List.mem_cons.mp hb with rfl | hb2
        · exact ⟨a, List.mem_cons_self a as, hf⟩
        · obtain ⟨x, hx, hfx⟩ := ih bs0 hm b hb2
          exact ⟨x, List.mem_cons_of_mem a hx, hfx⟩

theorem statusAndBody_cases (file : Option String) (blob : List Char) :
    ((statusAndBody file blob).1 = none ∨ (statusAndBody file blob).1 = some 'A' ∨
      (statusAndBody file blob).1 = some 'M' ∨
      (statusAndBody file blob).1 = some 'D') ∧
    (file = none → (statusAndBody file blob).1 = none) := by
  cases file with
  | none => exact ⟨Or.inl rfl, fun _ => rfl⟩
  | some f =>
    refine ⟨?_, ?_⟩
    · rw [statusAndBody_some_eq]
      exact amendedRule_statusCases blob
    · intro hn
      exact absurd hn (by simp)

/-! ## Lightweight parent-field machinery -/

/-- The raw parent field of a merge commit: hashes joined by single spaces
(the expansion of the `%P` placeholder). -/
def joinSpace : List String → List Char
  | [] => []
  | [t] => t.data
  | t :: ts => t.data ++ ' ' :: joinSpace ts

theorem joinSpace_ne_nil (t : String) (ts : List String) (ht : t.data ≠ []) :
    joinSpace (t :: ts) ≠ [] := by
  cases ts with
  | nil => simpa [joinSpace] using ht
  | cons t2 ts2 =>
    simp only [joinSpace]
    intro hz
    exact ht (List.append_eq_nil.mp hz).1

theorem joinSpace_head (t : String) (ts : List String) (ht : t.data ≠ []) :
    (joinSpace (t :: ts)).head? = t.data.head? := by
  cases ts with
  | nil => rfl
  | cons t2 ts2 =>
    simp only [joinSpace]
    cases hd : t.data with
    | nil => exact absurd hd ht
    | cons c cs => simp


theorem joinSpace_getLast (ts : List String) (hts : ∀ t ∈ ts, t.data ≠ []) :
    ∀ c, (joinSpace ts).getLast? = some c → ∃ t ∈ ts, c ∈ t.data := by
  induction ts with
  | nil => intro c hc; simp [joinSpace] at hc
  | cons t ts2 ih =>
    intro c hc
    cases ts2 with
    | nil =>
      refine ⟨t, List.mem_cons_self t [], ?_⟩
      simp only [joinSpace] at hc
      exact List.mem_of_mem_getLast? hc
    | cons t2 ts3 =>
      simp only [joinSpace] at hc
      have hne : (' ' :: joinSpace (t2 :: ts3) : List Char) ≠ [] := by simp
      rw [List.getLast?_append_of_ne_nil _ hne] at hc
      have hj : joinSpace (t2 :: ts3) ≠ [] :=
        joinSpace_ne_nil t2 ts3
          (hts t2 (List.mem_cons_of_mem t (List.mem_cons_self t2 ts3)))
      have hc2 : (joinSpace (t2 :: ts3)).getLast? = some c := by
        have heq : (' ' :: joinSpace (t2 :: ts3) : List Char) =
            [' '] ++ joinSpace (t2 :: ts3) := rfl
        rw [heq, List.getLast?_append_of_ne_nil _ hj] at hc
        exact hc
      obtain ⟨t', ht', hct⟩ :=
        ih (fun x hx => hts x (List.mem_cons_of_mem t hx)) c hc2
      exact ⟨t', List.mem_cons_of_mem t ht', hct⟩

theorem jsSplit_space_join (ts : List String)
    (h : ∀ t ∈ ts, ∀ c ∈ t.data, c ≠ ' ') :
    jsSplit [' '] (joinSpace ts) = if ts.isEmpty then [[]] else ts.map String.data := by
  induction ts with
  | nil => rfl
  | cons t ts2 ih =>
    cases ts2 with
    | nil =>
      have hsp : ' ' ∉ t.data := fun hm =>
        h t (List.mem_cons_self t []) ' ' hm rfl
      simp only [joinSpace, List.isEmpty]
      rw [jsSplit_single ' ' [] t.data hsp]
      rfl
    | cons t2 ts3 =>
      have hsp : ' ' ∉ t.data := fun hm =>
        h t (List.mem_cons_self t _) ' ' hm rfl
      simp only [joinSpace]
      have happ := jsSplit_append ' ' [] t.data (joinSpace (t2 :: ts3)) hsp
      simp only [List.nil_append] at happ
      rw [happ, ih (fun x hx => h x (List.mem_cons_of_mem t hx))]
      rfl

theorem lwParseParents_join (ts : List String)
    (h : ∀ t ∈ ts, t.data ≠ [] ∧ ∀ c ∈ t.data, jsIsWs c = false) :
    lwParseParents (joinSpace ts) = ts := by
  cases ts with
  | nil => rfl
  | cons t ts2 =>
    have ht := h t (List.mem_cons_self t ts2)
    have hne := joinSpace_ne_nil t ts2 ht.1
    have hhead : ∀ c, (joinSpace (t :: ts2)).head? = some c → jsIsWs c = false := by
      intro c hc
      rw [joinSpace_head t ts2 ht.1] at hc
      exact ht.2 c (List.mem_of_mem_head? hc)
    have hlast : ∀ c, (joinSpace (t :: ts2)).getLast? = some c → jsIsWs c = false := by
      intro c hc
      obtain ⟨t', ht', hct⟩ :=
        joinSpace_getLast (t :: ts2) (fun x hx => (h x hx).1) c hc
      exact (h t' ht').2 c hct
    have htrim : jsTrim (joinSpace (t :: ts2)) = joinSpace (t :: ts2) :=
      jsTrim_eq_self _ hhead hlast
    have hsp : ∀ x ∈ t :: ts2, ∀ c ∈ x.data, c ≠ ' ' := by
      intro x hx c hcx hceq
      have hw := (h x hx).2 c hcx
      rw [hceq] at hw
      simp [jsIsWs] at hw
    have hsplit : jsSplit [' '] (joinSpace (t :: ts2)) = (t :: ts2).map String.data := by
      rw [jsSplit_space_join (t :: ts2) hsp]
      rfl
    have hcond : ¬ ((joinSpace (t :: ts2)).isEmpty = true) := by
      rw [isEmpty_false_of_ne _ hne]
      exact Bool.false_ne_true
    unfold lwParseParents
    rw [if_neg hcond, htrim, hsplit, List.map_map]
    have hid : (fun l => String.mk l) ∘ String.data = fun s : String => s :=
      funext (fun s => rfl)
    rw [hid]
    simp

theorem fsRead_fsWrite (fs : FSState) (p : List String) (c : String) :
    fsRead (fsWrite fs p c) p = some c := by
  unfold fsRead fsWrite
  rw [List.find?_cons_of_pos _ (by simp)]
  rfl

theorem mem_initsNE (p d : List String) (hne : p ≠ []) (hp : p <+: d) :
    p ∈ initsNE d := by
  induction d generalizing p with
  | nil => exact absurd (List.prefix_nil.mp hp) hne
  | cons x xs ih =>
    cases p with
    | nil => exact absurd rfl hne
    | cons a ps =>
      obtain ⟨rfl, hps⟩ := List.cons_prefix_cons.mp hp
      cases ps with
      | nil => exact List.mem_cons_self _ _
      | cons b ps2 =>
        have hmem := ih (b :: ps2) (by simp) hps
        exact List.mem_cons.mpr
          (Or.inr (List.mem_map.mpr ⟨b :: ps2, hmem, rfl⟩))

instance (s : String) : Decidable (cleanStr s) := by
  unfold cleanStr
  infer_instance

instance (r : RawLogRecord) : Decidable (cleanRecord r) := by
  unfold cleanRecord
  infer_instance

/-! ## Claim theorems -/

/-- Claim C1 counterexample: the claim promises the pre-restore content for
EVERY fetch-failure run, but when the rollback write itself fails the
interrupted (truncating) write can leave the file with other bytes: here the
file held `"A"`, the fetch fails, the rollback write fails mid-write, and the
file ends up truncated to `""`. -/
theorem restore_fetchFail_corrupt_cex :
    fsRead ⟨[(["cfg", "f"], "A")], []⟩ (["cfg"] ++ ["f"]) = some "A" ∧
    (gitCheckoutSafe
        ⟨Except.error (JsError.mk "bad revision"),
          fun _ => some (JsError.mk "disk full"), fun _ => some ""⟩
        ["cfg"] ["f"] ⟨[(["cfg", "f"], "A")], []⟩).result =
      Except.error (JsError.mk "bad revision") ∧
    fsRead (gitCheckoutSafe
        ⟨Except.error (JsError.mk "bad revision"),
          fun _ => some (JsError.mk "disk full"), fun _ => some ""⟩
        ["cfg"] ["f"] ⟨[(["cfg", "f"], "A")], []⟩).fs (["cfg"] ++ ["f"]) =
      some "" ∧
    (some "" : Option String) ≠ some "A" :=
  ⟨rfl, rfl, rfl, by decide⟩

/-- Claim C1 (amended): when the target file exists with some content and the
fetch of the blob at the requested revision fails, `gitCheckoutSafe` always
re-raises the original fetch failure to the caller, and — provided the
rollback write succeeds — leaves the file with its pre-restore content (the
backup is written back over it).  A failing rollback write may instead leave
the file partially written or missing (the Corrupted state), as the
counterexample shows. -/
theorem restore_fetchFail_rollsBack (env : RestoreEnv) (cfg fp : List String)
    (fs : FSState) (a : String) (e : JsError)
    (hb : fsRead fs (cfg ++ fp) = some a) (hf : env.fetch = Except.error e) :
    (gitCheckoutSafe env cfg fp fs).result = Except.error e ∧
      (env.writeErr 0 = none →
        fsRead (gitCheckoutSafe env cfg fp fs).fs (cfg ++ fp) = some a) := by
  simp only [gitCheckoutSafe, hf, hb, restoreCatch]
  cases hw : env.writeErr 0 with
  | none => exact ⟨rfl, fun _ => fsRead_fsWrite fs (cfg ++ fp) a⟩
  | some re => exact ⟨rfl, fun hn => absurd hn (by simp)⟩

/-- Witness for claim C1 (amended): a concrete restore call with existing
content `"A"`, a failing fetch, and a succeeding rollback write. -/
theorem restore_fetchFail_rollsBack_witness :
    fsRead ⟨[(["cfg", "f"], "A")], []⟩ (["cfg"] ++ ["f"]) = some "A" ∧
    (⟨Except.error (JsError.mk "bad revision"), fun _ => none, fun _ => none⟩ :
        RestoreEnv).fetch = Except.error (JsError.mk "bad revision") ∧
    (⟨Except.error (JsError.mk "bad revision"), fun _ => none, fun _ => none⟩ :
        RestoreEnv).writeErr 0 = none ∧
    (gitCheckoutSafe ⟨Except.error (JsError.mk "bad revision"), fun _ => none,
        fun _ => none⟩ ["cfg"] ["f"] ⟨[(["cfg", "f"], "A")], []⟩).result =
      Except.error (JsError.mk "bad revision") ∧
    fsRead (gitCheckoutSafe ⟨Except.error (JsError.mk "bad revision"),
        fun _ => none, fun _ => none⟩ ["cfg"] ["f"]
        ⟨[(["cfg", "f"], "A")], []⟩).fs (["cfg"] ++ ["f"]) = some "A" :=
  ⟨rfl, rfl, rfl,
    (restore_fetchFail_rollsBack
      ⟨Except.error (JsError.mk "bad revision"), fun _ => none, fun _ => none⟩
      ["cfg"] ["f"] ⟨[(["cfg", "f"], "A")], []⟩ "A" (JsError.mk "bad revision")
      rfl rfl).1,
    (restore_fetchFail_rollsBack
      ⟨Except.error (JsError.mk "bad revision"), fun _ => none, fun _ => none⟩
      ["cfg"] ["f"] ⟨[(["cfg", "f"], "A")], []⟩ "A" (JsError.mk "bad revision")
      rfl rfl).2 rfl⟩

/-- Claim C2 counterexample: the error raised to the caller is NOT
distinguishable between the rollback-failed and rollback-succeeded cases —
with the same primary write failure, both calls throw the identical original
error value. -/
theorem restore_raisedError_same_cex :
    (gitCheckoutSafe ⟨Except.ok "B",
        fun n => if n = 0 then some (JsError.mk "w") else some (JsError.mk "boom"),
        fun _ => some ""⟩
      ["cfg"] ["f"] ⟨[(["cfg", "f"], "A")], []⟩).result =
      Except.error (JsError.mk "w") ∧
    (gitCheckoutSafe ⟨Except.ok "B",
        fun n => if n = 0 then some (JsError.mk "w") else none,
        fun _ => some ""⟩
      ["cfg"] ["f"] ⟨[(["cfg", "f"], "A")], []⟩).result =
      Except.error (JsError.mk "w") := ⟨rfl, rfl⟩

/-- Claim C2 (amended): when the primary restore fails — by a fetch failure,
or by a primary-write failure after a successful fetch — and a backup exists,
the distinct CRITICAL log line is emitted exactly when the rollback write
(write call 0 after a fetch failure, write call 1 after a write failure) also
fails; the error raised to the caller is the original primary failure in
every case, and a successful rollback leaves the file with its backup
content. -/
theorem restore_criticalLog_iff (env : RestoreEnv) (cfg fp : List String)
    (fs : FSState) (a : String) (e : JsError)
    (hb : fsRead fs (cfg ++ fp) = some a)
    (hprim : env.fetch = Except.error e ∨
      ∃ b, env.fetch = Except.ok b ∧ env.writeErr 0 = some e) :
    (gitCheckoutSafe env cfg fp fs).result = Except.error e ∧
    (env.writeErr (rollbackIndex env.fetch) = none →
      (gitCheckoutSafe env cfg fp fs).logs =
        ["[git] Restore failed for " ++ pathStr fp ++ ": " ++ jsErrMsg e,
          "[git] Restored backup after failed restore: " ++ pathStr fp] ∧
      fsRead (gitCheckoutSafe env cfg fp fs).fs (cfg ++ fp) = some a) ∧
    (∀ re, env.writeErr (rollbackIndex env.fetch) = some re →
      (gitCheckoutSafe env cfg fp fs).logs =
        ["[git] Restore failed for " ++ pathStr fp ++ ": " ++ jsErrMsg e,
          "[git] CRITICAL: Restore failed AND could not restore backup: " ++
            jsErrMsg re]) := by
  rcases hprim with hf | ⟨b, hf, hw0⟩
  · simp only [gitCheckoutSafe, restoreCatch, hb, hf, rollbackIndex]
    cases hw : env.writeErr 0 with
    | none =>
      exact ⟨rfl, fun _ => ⟨rfl, fsRead_fsWrite _ _ _⟩,
        fun re hre => absurd hre (by simp)⟩
    | some re0 =>
      refine ⟨rfl, fun hn => absurd hn (by simp), fun re hre => ?_⟩
      injection hre with h2
      subst h2
      rfl
  · simp only [gitCheckoutSafe, restoreCatch, hb, hf, hw0, rollbackIndex]
    cases hw : env.writeErr 1 with
    | none =>
      exact ⟨rfl, fun _ => ⟨rfl, fsRead_fsWrite _ _ _⟩,
        fun re hre => absurd hre (by simp)⟩
    | some re0 =>
      refine ⟨rfl, fun hn => absurd hn (by simp), fun re hre => ?_⟩
      injection hre with h2
      subst h2
      rfl

/-- Claim C3: evaluation of the parser at a malformed input.  The fragment
`"x"` has fewer than 7 fields, so the timestamp field defaults to the empty
string; `parseInt('')` is `NaN` and `new Date(NaN).toISOString()` throws a
`RangeError`, so `gitLog` raises instead of returning a degraded record. -/
theorem gitLog_malformed_timestamp_raises :
    gitLogParse "x" none = Except.error "Invalid time value" := rfl

/-- Claim C4 counterexample: for the trailing blob `"body\nM "`, the last
non-blank line taken verbatim is `"M "`, which matches the pattern
"status letter followed by whitespace", so the claim predicts status
`Modified`; the code trims the blob first, tests `"M"`, and yields no
status. -/
theorem gitLog_lastLine_verbatim_cex :
    specLastNonBlankStatus ("body\nM ".data) = some 'M' ∧
    (gitLogParse "±±±±h§§§§h7§§§§an§§§§ae§§§§0§§§§subj§§§§body\nM "
        (some "notes.txt")).map (fun res => res.all.map LogCommit.status) =
      Except.ok [none] := ⟨rfl, rfl⟩

/-- Raw record used by the witnesses: the trailing blob carries a glued
name-status line. -/
def wRecF : RawLogRecord :=
  ⟨"h", "h7", "an", "ae", "0", "subject", "b\nM\tnotes.txt"⟩

/-- Witness for claim C4 (amended) at a concrete record whose blob ends in
`"M\tnotes.txt"`. -/
theorem gitLog_fileFilter_witness :
    wfRecord wRecF ∧
    gitLogParse (renderLog [wRecF]) (some "notes.txt") =
      Except.ok ⟨[interpretRecordFile wRecF], some (interpretRecordFile wRecF), 1⟩ ∧
    (interpretRecordFile wRecF).status = some 'M' ∧
    (interpretRecordFile wRecF).body = "b" :=
  ⟨⟨by decide, by decide, 0, by decide, by decide⟩,
    gitLogParse_file_single "notes.txt" wRecF
      ⟨by decide, by decide, 0, by decide, by decide⟩, by decide, by decide⟩

/-- Raw record used by the C5 witness. -/
def wRec : RawLogRecord := ⟨"h", "h7", "an", "ae", "0", "subject", "b"⟩

/-- Witness for claim C5 at a concrete one-record log. -/
theorem gitLog_wellFormed_witness :
    (∀ r ∈ [wRec], wfRecord r) ∧
    gitLogParse (renderLog [wRec]) none =
      Except.ok ⟨[wRec].map interpretRecord, ([wRec].map interpretRecord).head?,
        [wRec].length⟩ := by
  have hwf : ∀ r ∈ [wRec], wfRecord r := by
    intro r hr
    rw [List.mem_singleton] at hr
    subst hr
    exact ⟨by decide, by decide, 0, by decide, by decide⟩
  exact ⟨hwf, gitLogParse_wellFormed [wRec] hwf⟩

/-- Claim C6: whitespace-only raw output makes both parsers return the empty
result (no records, no latest, count 0) without raising. -/
theorem emptyOutput_emptyResult (stdout : String) (file : Option String)
    (h : (jsTrim stdout.data).isEmpty = true) :
    gitLogParse stdout file = Except.ok ⟨[], none, 0⟩ ∧
      lwLogParse stdout = ⟨[], 0, none⟩ := by
  constructor
  · unfold gitLogParse
    rw [if_pos h]
  · unfold lwLogParse
    rw [if_pos h]

/-- Witness for claim C6 on a whitespace-only stdout. -/
theorem emptyOutput_emptyResult_witness :
    (jsTrim ("  \n \t" : String).data).isEmpty = true ∧
    (gitLogParse "  \n \t" (some "f") = Except.ok ⟨[], none, 0⟩ ∧
      lwLogParse "  \n \t" = ⟨[], 0, none⟩) :=
  ⟨by decide, emptyOutput_emptyResult _ _ (by decide)⟩

/-- Claim C7: when the fetch succeeds and the write succeeds,
`gitCheckoutSafe` returns without error, the file afterwards holds exactly
the fetched content (whether or not it existed before), and a missing parent
directory chain is created recursively. -/
theorem restore_success_writesFetched (env : RestoreEnv) (cfg fp : List String)
    (fs : FSState) (b : String)
    (hf : env.fetch = Except.ok b) (hw : env.writeErr 0 = none) :
    (gitCheckoutSafe env cfg fp fs).result = Except.ok () ∧
      fsRead (gitCheckoutSafe env cfg fp fs).fs (cfg ++ fp) = some b ∧
      ((cfg ++ fp).dropLast ∉ fs.dirs → ∀ p, p ≠ [] → p <+: (cfg ++ fp).dropLast →
        p ∈ (gitCheckoutSafe env cfg fp fs).fs.dirs) := by
  refine ⟨?_, ?_, ?_⟩
  · simp only [gitCheckoutSafe, hf, hw]
  · simp only [gitCheckoutSafe, hf, hw]
    exact fsRead_fsWrite _ _ _
  · simp only [gitCheckoutSafe, hf, hw]
    intro hd p hpne hpd
    rw [if_neg hd]
    show p ∈ initsNE ((cfg ++ fp).dropLast) ++ fs.dirs
    exact List.mem_append.mpr (Or.inl (mem_initsNE p _ hpne hpd))

/-- Witness for claim C7: restoring `"C"` into a not-yet-existing file below
a not-yet-existing directory. -/
theorem restore_success_writesFetched_witness :
    (⟨Except.ok "C", fun _ => none, fun _ => none⟩ : RestoreEnv).fetch = Except.ok "C" ∧
    (⟨Except.ok "C", fun _ => none, fun _ => none⟩ : RestoreEnv).writeErr 0 = none ∧
    ((gitCheckoutSafe ⟨Except.ok "C", fun _ => none, fun _ => none⟩ ["cfg"] ["sub", "f"]
        ⟨[], []⟩).result = Except.ok () ∧
      fsRead (gitCheckoutSafe ⟨Except.ok "C", fun _ => none, fun _ => none⟩ ["cfg"] ["sub", "f"]
        ⟨[], []⟩).fs (["cfg"] ++ ["sub", "f"]) = some "C" ∧
      ((["cfg"] ++ ["sub", "f"]).dropLast ∉ (⟨[], []⟩ : FSState).dirs →
        ∀ p, p ≠ [] → p <+: (["cfg"] ++ ["sub", "f"]).dropLast →
          p ∈ (gitCheckoutSafe ⟨Except.ok "C", fun _ => none, fun _ => none⟩ ["cfg"] ["sub", "f"]
            ⟨[], []⟩).fs.dirs)) :=
  ⟨rfl, rfl, restore_success_writesFetched _ _ _ _ _ rfl rfl⟩

/-- Claim C8: the lightweight parser splits a non-empty parent field into the
space-separated hashes in their reported order, and maps an empty parent
field to the empty parent list. -/
theorem lwParents_splitOrder (ts : List String)
    (h : ∀ t ∈ ts, t.data ≠ [] ∧ ∀ c ∈ t.data, jsIsWs c = false) :
    lwParseParents (joinSpace ts) = ts ∧ lwParseParents [] = [] :=
  ⟨lwParseParents_join ts h, rfl⟩

/-- Witness for claim C8 on the parent field `"abc123 def456"`. -/
theorem lwParents_splitOrder_witness :
    (∀ t ∈ ["abc123", "def456"], t.data ≠ [] ∧ ∀ c ∈ t.data, jsIsWs c = false) ∧
    (lwParseParents ("abc123 def456" : String).data = ["abc123", "def456"] ∧
      lwParseParents [] = []) :=
  ⟨by decide, lwParents_splitOrder ["abc123", "def456"] (by decide)⟩

/-- Claim C9: every record an accepted parse produces carries a status among
Added/Modified/Deleted/Unknown (`some 'A' / some 'M' / some 'D' / none`), and
the status is Unknown for every record whenever no file filter was passed. -/
theorem gitLog_status_invariant (stdout : String) (file : Option String)
    (res : LogResult) (h : gitLogParse stdout file = Except.ok res) :
    ∀ c ∈ res.all,
      (c.status = none ∨ c.status = some 'A' ∨ c.status = some 'M' ∨
        c.status = some 'D') ∧ (file = none → c.status = none) := by
  intro c hc
  simp only [gitLogParse] at h
  by_cases he : (jsTrim stdout.data).isEmpty = true
  · rw [if_pos he] at h
    simp only [Except.ok.injEq] at h
    subst h
    simp at hc
  · rw [if_neg he] at h
    cases hm : mapExcept (parseCommitFragment file)
        ((jsSplit commitDelim stdout.data).filter
          (fun x => !(jsTrim x).isEmpty)) with
    | error e =>
      rw [hm] at h
      simp at h
    | ok commits =>
      rw [hm] at h
      simp only [Except.ok.injEq] at h
      subst h
      obtain ⟨raw, hraw, hp⟩ := mapExcept_mem _ _ _ hm c hc
      have hst := parseCommitFragment_status file raw c hp
      rw [hst]
      exact statusAndBody_cases file _

/-- Parsed commit used by the C9 witness. -/
def wCommit : LogCommit :=
  ⟨"h", "h7", "an", "ae", "1970-01-01T00:00:00.000Z", "s", "b", none⟩

/-- Parse result used by the C9 witness. -/
def wRes : LogResult := ⟨[wCommit], some wCommit, 1⟩

/-- Witness for claim C9 on a concrete one-record stdout without a filter. -/
theorem gitLog_status_invariant_witness :
    gitLogParse "±±±±h§§§§h7§§§§an§§§§ae§§§§0§§§§s§§§§b" none = Except.ok wRes ∧
    ∀ c ∈ wRes.all,
      (c.status = none ∨ c.status = some 'A' ∨ c.status = some 'M' ∨
        c.status = some 'D') ∧ (none = (none : Option String) → c.status = none) :=
  ⟨rfl, gitLog_status_invariant "±±±±h§§§§h7§§§§an§§§§ae§§§§0§§§§s§§§§b" none wRes rfl⟩

/-- Claim C10: `gitCheckIsRepo` never raises — it always returns a boolean,
`true` exactly when the underlying `rev-parse` invocation succeeds, and
`false` in particular whenever `CONFIG_PATH` was never initialized. -/
theorem gitCheckIsRepo_neverRaises (env : GitEnv) :
    (env.configPath = none → gitCheckIsRepo env = Except.ok false) ∧
    ∃ b : Bool, gitCheckIsRepo env = Except.ok b ∧
      (b = true ↔ ∃ o, gitExec env ["rev-parse", "--is-inside-work-tree"] =
        Except.ok o) := by
  constructor
  · intro h
    simp [gitCheckIsRepo, gitExec, h]
  · cases hr : gitExec env ["rev-parse", "--is-inside-work-tree"] with
    | ok o =>
      refine ⟨true, ?_, ?_⟩
      · simp [gitCheckIsRepo, hr]
      · simp [hr]
    | error e =>
      refine ⟨false, ?_, ?_⟩
      · simp [gitCheckIsRepo, hr]
      · simp [hr]

/-- Witness for claim C10 with an unconfigured root directory. -/
theorem gitCheckIsRepo_neverRaises_witness :
    (⟨none, fun _ => Except.error (JsError.mk "spawn failed")⟩ : GitEnv).configPath =
      none ∧
    gitCheckIsRepo ⟨none, fun _ => Except.error (JsError.mk "spawn failed")⟩ =
      Except.ok false :=
  ⟨rfl, (gitCheckIsRepo_neverRaises _).1 rfl⟩

/-- Witness for claim C2 (amended): concrete runs for the write-failure
primary with failing rollback, the fetch-failure primary with failing
rollback, and the fetch-failure primary with succeeding rollback. -/
theorem restore_criticalLog_iff_witness :
    fsRead ⟨[(["cfg", "f"], "A")], []⟩ (["cfg"] ++ ["f"]) = some "A" ∧
    ((gitCheckoutSafe ⟨Except.ok "B",
        fun n => if n = 0 then some (JsError.mk "w") else some (JsError.mk "boom"),
        fun _ => some ""⟩ ["cfg"] ["f"] ⟨[(["cfg", "f"], "A")], []⟩).result =
      Except.error (JsError.mk "w") ∧
    (gitCheckoutSafe ⟨Except.ok "B",
        fun n => if n = 0 then some (JsError.mk "w") else some (JsError.mk "boom"),
        fun _ => some ""⟩ ["cfg"] ["f"] ⟨[(["cfg", "f"], "A")], []⟩).logs =
      ["[git] Restore failed for " ++ pathStr ["f"] ++ ": " ++
          jsErrMsg (JsError.mk "w"),
        "[git] CRITICAL: Restore failed AND could not restore backup: " ++
          jsErrMsg (JsError.mk "boom")]) ∧
    ((gitCheckoutSafe ⟨Except.error (JsError.mk "bad revision"),
        fun _ => some (JsError.mk "boom"), fun _ => none⟩
        ["cfg"] ["f"] ⟨[(["cfg", "f"], "A")], []⟩).logs =
      ["[git] Restore failed for " ++ pathStr ["f"] ++ ": " ++
          jsErrMsg (JsError.mk "bad revision"),
        "[git] CRITICAL: Restore failed AND could not restore backup: " ++
          jsErrMsg (JsError.mk "boom")]) ∧
    ((gitCheckoutSafe ⟨Except.error (JsError.mk "bad revision"),
        fun _ => none, fun _ => none⟩
        ["cfg"] ["f"] ⟨[(["cfg", "f"], "A")], []⟩).logs =
      ["[git] Restore failed for " ++ pathStr ["f"] ++ ": " ++
          jsErrMsg (JsError.mk "bad revision"),
        "[git] Restored backup after failed restore: " ++ pathStr ["f"]] ∧
      fsRead (gitCheckoutSafe ⟨Except.error (JsError.mk "bad revision"),
        fun _ => none, fun _ => none⟩
        ["cfg"] ["f"] ⟨[(["cfg", "f"], "A")], []⟩).fs (["cfg"] ++ ["f"]) =
        some "A") :=
  ⟨rfl,
    ⟨(restore_criticalLog_iff
        ⟨Except.ok "B",
          fun n => if n = 0 then some (JsError.mk "w") else some (JsError.mk "boom"),
          fun _ => some ""⟩ ["cfg"] ["f"] ⟨[(["cfg", "f"], "A")], []⟩ "A"
        (JsError.mk "w") rfl (Or.inr ⟨"B", rfl, rfl⟩)).1,
      (restore_criticalLog_iff
        ⟨Except.ok "B",
          fun n => if n = 0 then some (JsError.mk "w") else some (JsError.mk "boom"),
          fun _ => some ""⟩ ["cfg"] ["f"] ⟨[(["cfg", "f"], "A")], []⟩ "A"
        (JsError.mk "w") rfl (Or.inr ⟨"B", rfl, rfl⟩)).2.2 (JsError.mk "boom") rfl⟩,
    (restore_criticalLog_iff
      ⟨Except.error (JsError.mk "bad revision"), fun _ => some (JsError.mk "boom"),
        fun _ => none⟩ ["cfg"] ["f"] ⟨[(["cfg", "f"], "A")], []⟩ "A"
      (JsError.mk "bad revision") rfl (Or.inl rfl)).2.2 (JsError.mk "boom") rfl,
    (restore_criticalLog_iff
      ⟨Except.error (JsError.mk "bad revision"), fun _ => none, fun _ => none⟩
      ["cfg"] ["f"] ⟨[(["cfg", "f"], "A")], []⟩ "A"
      (JsError.mk "bad revision") rfl (Or.inl rfl)).2.1 rfl⟩
